import Mathlib

/-!
Verification development for the ImpactQuantification repository.

The repository contains two independent command line scripts:

* `scholar_citations.py` — queries Google Scholar for citation counts of
  papers listed in a CSV file, extracts author surnames with a regex
  heuristic, and matches search results against the input row's authors.
* `github_repo_popularity.py` — polls the GitHub REST API for
  star/fork/watcher counts (and optional traffic counters) of a list of
  repositories, accumulating rows into a column-oriented result table.

Below we give a shallow embedding of the functions these scripts define.
Strings are modelled as `List Char`, HTTP responses as explicit data
(`HttpResult`), Python exceptions as `Except PyErr`, and the result table
as an association list from column name to list of values.
-/

namespace ImpactQuant

/-! ### Character classes of `surname_regex`

`surname_regex = re.compile("([A-ZÀ-Þ][a-zß-ÿć]+)+")`
The first class is `A`-`Z` (65-90) together with U+00C0-U+00DE (192-222);
the second is `a`-`z` (97-122), U+00DF-U+00FF (223-255) and U+0107 (263).
-/

/-- Characters matched by `[A-ZÀ-Þ]`, the first character class of
`surname_regex` in `scholar_citations.py`. -/
def upChar (c : Char) : Bool :=
  (65 ≤ c.toNat && c.toNat ≤ 90) || (192 ≤ c.toNat && c.toNat ≤ 222)

/-- Characters matched by `[a-zß-ÿć]`, the second character
class of `surname_regex`. -/
def lowChar (c : Char) : Bool :=
  (97 ≤ c.toNat && c.toNat ≤ 122) || (223 ≤ c.toNat && c.toNat ≤ 255)
    || (c.toNat == 263)

/-- One scanning step of `surname_regex.findall`.

Python's `findall` scans left to right.  At a position starting with an
uppercase character followed by at least one lowercase character, the greedy
pattern `(U L+)+` consumes a maximal run of `U L+` blocks; the captured group
is the last block.  At any other position the scan advances one character;
when a match ends (or the string ends) the captured group is emitted.
The accumulator holds the captured group of the match currently in progress
(the last fully consumed `U L+` block). -/
def findAux : List Char → Option (List Char) → List (List Char)
  | [], none => []
  | [], some g => [g]
  | c :: rest, acc =>
    if upChar c && !(rest.takeWhile lowChar).isEmpty then
      findAux (rest.dropWhile lowChar) (some (c :: rest.takeWhile lowChar))
    else
      match acc with
      | some g => g :: findAux rest none
      | none => findAux rest none
termination_by cs _ => cs.length
decreasing_by
  all_goals
    simp only [List.length_cons]
    have h : ∀ l : List Char, (l.dropWhile lowChar).length ≤ l.length := by
      intro l
      induction l with
      | nil => simp [List.dropWhile]
      | cons a l ih =>
        rw [List.dropWhile_cons]
        split
        · exact Nat.le_trans ih (Nat.le_succ _)
        · exact Nat.le_refl _
    have h2 := h rest
    omega

/-- `surname_regex.findall` applied to a string (modelled as `List Char`). -/
def findall (cs : List Char) : List (List Char) :=
  findAux cs none

/-- The result of `" ".join(L)` in Python: the elements of `L` joined by
single spaces. -/
def joinSpaces : List (List Char) → List Char
  | [] => []
  | [g] => g
  | g :: gs => g ++ ' ' :: joinSpaces gs

/-- Shape of every string `findall` can emit: one uppercase-class character
followed by a nonempty run of lowercase-class characters (the last `U L+`
block of a match). -/
def goodBlock (g : List Char) : Prop :=
  ∃ u ls, g = u :: ls ∧ upChar u = true ∧ ls ≠ [] ∧ ∀ c ∈ ls, lowChar c = true

/-- Python exceptions that the embedded code can raise. -/
inductive PyErr where
  | runtimeError
  | typeError
  | attributeError
  | requestsError
deriving DecidableEq, Repr

/-- Python values that can appear in the `Author(s)` field of an input row
(or be passed to `find_surnames`): a string, a list, a tuple, or some other
scalar such as the `NaN` float that pandas produces for a missing field. -/
inductive AuthorsVal where
  | str (s : List Char)
  | list (xs : List AuthorsVal)
  | tuple (xs : List AuthorsVal)
  | nanv
  | nonev
  | intv (n : Int)

/-- The accumulation loop in the list/tuple branch of `find_surnames`:
`surname_list += re.findall(surname_regex, author)` raises `TypeError`
when an element is not a string. -/
def surnameFold : List AuthorsVal → List (List Char) → Except PyErr (List (List Char))
  | [], acc => .ok acc
  | a :: rest, acc =>
    match a with
    | .str s => surnameFold rest (acc ++ findall s)
    | _ => .error .typeError

/-- `find_surnames` from `scholar_citations.py`: on a string apply
`surname_regex.findall`; on a list or tuple accumulate `findall` over the
elements (raising `TypeError` on a non-string element); on anything else
return the initial empty list. -/
def find_surnames (authors : AuthorsVal) : Except PyErr (List (List Char)) :=
  match authors with
  | .str s => .ok (findall s)
  | .list xs => surnameFold xs []
  | .tuple xs => surnameFold xs []
  | _ => .ok []

/-- True when `find_surnames` takes neither the string branch nor the
list/tuple branch for this value (the `isinstance` checks all fail). -/
def isOtherVal (v : AuthorsVal) : Bool :=
  match v with
  | .str _ => false
  | .list _ => false
  | .tuple _ => false
  | _ => true

/-- `match_surnames` from `scholar_citations.py`: loop over the first list
and return `True` as soon as a name is contained in the second list. -/
def match_surnames : List (List Char) → List (List Char) → Bool
  | [], _ => false
  | name :: rest, list_2 =>
    if list_2.contains name then true else match_surnames rest list_2

/-- One parsed search-result snippet: candidate author surnames and the
citation count extracted from the snippet. -/
structure SearchRecord where
  authors : List (List Char)
  citations : Int
deriving DecidableEq, Repr

/-- The result-selection loop in `process_row`: starting from the sentinel
`-1`, take the citation count of the first search result whose author list
matches the row's surnames, or whose check is bypassed because the row's
surname list is empty. -/
def selectCitations (author_surnames : List (List Char)) : List SearchRecord → Int
  | [] => -1
  | r :: rest =>
    if match_surnames r.authors author_surnames || author_surnames.isEmpty then
      r.citations
    else selectCitations author_surnames rest

/-- The author surnames `process_row` derives from the input row: the
`isinstance(paper_authors, str)` guard yields `[]` for a non-string field,
otherwise `find_surnames` (which on a string is `findall`). -/
def rowSurnames (paper_authors : AuthorsVal) : List (List Char) :=
  match paper_authors with
  | .str s => findall s
  | _ => []

/-- The citation value `process_row` stores in the output record, given the
row's `Author(s)` field and the parsed search results (`None` when
`perform_query` returned `None`). -/
def process_row (paper_authors : AuthorsVal) :
    Option (List SearchRecord) → Int
  | none => -1
  | some results => selectCitations (rowSurnames paper_authors) results

/-! ### HTTP layer of the citation path -/

/-- An HTTP interaction as seen by the scripts: either a response carrying a
status code and a parsed body, or an exception raised by `requests.get`. -/
inductive HttpResult (α : Type) where
  | resp (statusCode : Nat) (body : α)
  | exn
deriving DecidableEq

/-- One `div.gs_ri` result block of the parsed Scholar page: the text of its
`div.gs_a` author line when present, and the text of its `scholar?cites`
link when present. -/
structure ResultBlock where
  authorsDiv : Option (List Char)
  citeLink : Option (List Char)
deriving DecidableEq, Repr

/-- The parsed HTML page: the list of `div.gs_ri` result blocks. -/
abbrev Soup := List ResultBlock

/-- `perform_query`: a transport exception or a non-200 status yields
`None`; a 200 response yields the parsed page. -/
def perform_query (r : HttpResult Soup) : Option Soup :=
  match r with
  | .exn => none
  | .resp status body => if status = 200 then some body else none

/-- Numeric value of a run of decimal digits, as computed by `int(...)`. -/
def digitsVal (ds : List Char) : Nat :=
  ds.foldl (fun a c => a * 10 + (c.toNat - 48)) 0

/-- Match the literal `lit` at the front of `cs`, returning the remainder. -/
def dropLit : List Char → List Char → Option (List Char)
  | [], cs => some cs
  | _ :: _, [] => none
  | l :: ls, c :: cs => if c = l then dropLit ls cs else none

/-- Match `re.search("Cited by ([\\d]+)", ...)` at the start of `cs`:
the literal `Cited by ` followed by at least one digit, the capture being
the maximal digit run. -/
def citedByAt (cs : List Char) : Option Nat :=
  match dropLit "Cited by ".toList cs with
  | none => none
  | some rest =>
    let ds := rest.takeWhile Char.isDigit
    if ds.isEmpty then none else some (digitsVal ds)

/-- `re.search("Cited by ([\\d]+)", txt)`: scan for the leftmost position
where the pattern matches. -/
def searchCited : List Char → Option Nat
  | [] => none
  | c :: rest =>
    match citedByAt (c :: rest) with
    | some n => some n
    | none => searchCited rest

/-- Processing of one result block in `parse_query_result`.  The author
extraction is wrapped in `try/except` (a missing `div.gs_a` yields `[]`);
the `Cited by` extraction is not: when a cite link is present but
`re.search` finds no `Cited by N` in its text, `.groups()` is called on
`None` and the `AttributeError` propagates. -/
def parseBlock (b : ResultBlock) : Except PyErr SearchRecord :=
  let authors : List (List Char) :=
    match b.authorsDiv with
    | none => []
    | some txt => findall (txt.takeWhile (fun c => c.toNat ≠ 160))
  match b.citeLink with
  | none => .ok ⟨authors, 0⟩
  | some txt =>
    match searchCited txt with
    | some n => .ok ⟨authors, (n : Int)⟩
    | none => .error .attributeError

/-- `parse_query_result`: process the result blocks in order, the first
uncaught exception discarding the whole output list. -/
def parse_query_result : Soup → Except PyErr (List SearchRecord)
  | [] => .ok []
  | b :: rest =>
    match parseBlock b with
    | .error e => .error e
    | .ok r =>
      match parse_query_result rest with
      | .error e => .error e
      | .ok rs => .ok (r :: rs)

/-- The citation value computed by `process_row` from the raw HTTP result of
`perform_query`, or the Python exception escaping `process_row`. -/
def process_row_query (paper_authors : AuthorsVal) (r : HttpResult Soup) :
    Except PyErr Int :=
  match perform_query r with
  | none => .ok (-1)
  | some soup =>
    match parse_query_result soup with
    | .error e => .error e
    | .ok results => .ok (selectCitations (rowSurnames paper_authors) results)

/-- A result block whose cite link, when present, does contain a
`Cited by N` phrase that `re.search` can match. -/
def wellFormedCite (b : ResultBlock) : Prop :=
  ∀ txt, b.citeLink = some txt → (searchCited txt).isSome = true

/-! ### `github_repo_popularity.py`: result table and metrics fetch -/

/-- A value stored in the result table: an integer count or a string
(the `owner/repo` name, or the `n/a` placeholder). -/
inductive Val where
  | intv (n : Int)
  | strv (s : String)
deriving DecidableEq, Repr

/-- The column-oriented result table: a mapping from column name to the
list of values accumulated for that column, in insertion order. -/
abbrev Table := List (String × List Val)

/-- The inner update of `process_input_file`: `results[k] = []` when the
key is new (appending the key at the end, as a Python dict does), then
`results[k] += v`. -/
def updateTable (t : Table) (k : String) (v : List Val) : Table :=
  if t.any (fun p => p.1 = k) then
    t.map (fun p => if p.1 = k then (p.1, p.2 ++ v) else p)
  else t ++ [(k, v)]

/-- `for k, v in this_row.items(): ... results[k] += v` applied to an
accumulated table. -/
def applyRow (t : Table) (row : List (String × List Val)) : Table :=
  row.foldl (fun acc kv => updateTable acc kv.1 kv.2) t

/-- The fields of the repository-metadata JSON that
`get_stars_watchers_forks` reads. -/
structure RepoMeta where
  stargazersCount : Int
  forksCount : Int
  watchersCount : Int
deriving DecidableEq, Repr

/-- `get_stars_watchers_forks`: a non-200 status raises `RuntimeError`; a
transport exception from `requests.get` propagates as is; a 200 response
yields the three counts, each as a singleton column. -/
def get_stars_watchers_forks (r : HttpResult RepoMeta) :
    Except PyErr (List (String × List Val)) :=
  match r with
  | .exn => .error .requestsError
  | .resp status j =>
    if status = 200 then
      .ok [("stars", [Val.intv j.stargazersCount]),
           ("forks", [Val.intv j.forksCount]),
           ("watchers", [Val.intv j.watchersCount])]
    else .error .runtimeError

/-- `get_traffic`: the dict starts as `views -> ["n/a"], clones -> ["n/a"]`;
the two resources are fetched in that order, a non-200 status returning the
dict accumulated so far, and a transport exception propagating. -/
def get_traffic (views clones : HttpResult Int) :
    Except PyErr (List (String × List Val)) :=
  match views with
  | .exn => .error .requestsError
  | .resp vs vcount =>
    if vs = 200 then
      match clones with
      | .exn => .error .requestsError
      | .resp cs ccount =>
        if cs = 200 then
          .ok [("views", [Val.intv vcount]), ("clones", [Val.intv ccount])]
        else
          .ok [("views", [Val.intv vcount]), ("clones", [Val.strv "n/a"])]
    else .ok [("views", [Val.strv "n/a"]), ("clones", [Val.strv "n/a"])]

/-- The remote API as the batch run sees it: for each owner/repo pair, the
outcome of the metadata request and of the two traffic requests. -/
structure GitHubEnv where
  meta : List Char → List Char → HttpResult RepoMeta
  views : List Char → List Char → HttpResult Int
  clones : List Char → List Char → HttpResult Int

/-- `fill_row`: the `repo` column, then the metadata columns, then (when
`--traffic` is set) the traffic columns, each update appending fresh keys
in order. -/
def fill_row (owner repo : List Char) (traffic : Bool) (env : GitHubEnv) :
    Except PyErr (List (String × List Val)) :=
  match get_stars_watchers_forks (env.meta owner repo) with
  | .error e => .error e
  | .ok swf =>
    let base := ("repo", [Val.strv (String.mk (owner ++ '/' :: repo))]) :: swf
    if traffic then
      match get_traffic (env.views owner repo) (env.clones owner repo) with
      | .error e => .error e
      | .ok tr => .ok (base ++ tr)
    else .ok base

/-! ### The `GITHUB_REGEX` URL check and line parsing -/

/-- `\w` of the Python pattern (ASCII letters, digits, underscore). -/
def wordChar (c : Char) : Bool := c.isAlphanum || c = '_'

/-- The `[-\w]` class for the owner part of `GITHUB_REGEX`. -/
def ownerChar (c : Char) : Bool := c = '-' || wordChar c

/-- The `[-\w\.]` class for the repository part of `GITHUB_REGEX`. -/
def repoChar (c : Char) : Bool := c = '-' || wordChar c || c = '.'

/-- Match `[-\w]+/[-\w\.]+$` against the whole of `cs`: an owner segment,
a single slash, and a repository segment reaching the end of the string. -/
def ownerRepoTail (cs : List Char) : Bool :=
  let a := cs.takeWhile (fun c => c ≠ '/')
  match cs.dropWhile (fun c => c ≠ '/') with
  | '/' :: b => !a.isEmpty && a.all ownerChar && !b.isEmpty && b.all repoChar
  | _ => false

/-- Match `GITHUB_REGEX = http(s)?://github.com/[-\w]+/[-\w\.]+$` with the
match starting at the beginning of `cs` and (because of `$`) ending at the
end of `cs`. -/
def matchFromStart (cs : List Char) : Bool :=
  match dropLit "http".toList cs with
  | none => false
  | some r1 =>
    (match dropLit "s://github.com/".toList r1 with
     | some r2 => ownerRepoTail r2
     | none => false) ||
    (match dropLit "://github.com/".toList r1 with
     | some r2 => ownerRepoTail r2
     | none => false)

/-- `GITHUB_REGEX.search`: the pattern may start at any position. -/
def githubSearch : List Char → Bool
  | [] => matchFromStart []
  | c :: rest => matchFromStart (c :: rest) || githubSearch rest

/-- Python `str.strip()`: remove leading and trailing whitespace. -/
def pystrip (cs : List Char) : List Char :=
  ((cs.dropWhile Char.isWhitespace).reverse.dropWhile Char.isWhitespace).reverse

/-- Python `str.split("/")`: split on every slash, keeping empty parts. -/
def splitSlash : List Char → List (List Char)
  | [] => [[]]
  | c :: rest =>
    if c = '/' then [] :: splitSlash rest
    else
      match splitSlash rest with
      | [] => [[c]]
      | p :: ps => (c :: p) :: ps

/-- `line.strip().split("/")[-2:]` unpacked into `owner, repo`. -/
def parseOwnerRepo (stripped : List Char) : List Char × List Char :=
  match (splitSlash stripped).reverse with
  | repo :: owner :: _ => (owner, repo)
  | _ => ([], [])

/-- One iteration of the loop in `process_input_file`: a line failing the
`GITHUB_REGEX` check raises `RuntimeError` outside the `try` block; a
`RuntimeError` raised by `fill_row` is caught and the table is left
unchanged; any other exception propagates. -/
def processLine (traffic : Bool) (env : GitHubEnv) (t : Table)
    (line : List Char) : Except PyErr Table :=
  let stripped := pystrip line
  if githubSearch stripped then
    let owner_repo := parseOwnerRepo stripped
    match fill_row owner_repo.1 owner_repo.2 traffic env with
    | .ok row => .ok (applyRow t row)
    | .error .runtimeError => .ok t
    | .error e => .error e
  else .error .runtimeError

/-- `process_input_file`: fold the per-line step over the lines of the
input file, starting from the empty table. -/
def process_input_file (lines : List (List Char)) (traffic : Bool)
    (env : GitHubEnv) : Except PyErr Table :=
  lines.foldlM (fun t line => processLine traffic env t line) []

/-- The column names a successful `fill_row` produces, in order. -/
def rowKeys (traffic : Bool) : List String :=
  "repo" :: "stars" :: "forks" :: "watchers" ::
    (if traffic then ["views", "clones"] else [])

/-- The column names of a table, in order. -/
def tableKeys (t : Table) : List String := t.map Prod.fst

/-- Every column of the table holds the same number of values. -/
def balancedTable (t : Table) : Prop :=
  ∀ p ∈ t, ∀ q ∈ t, p.2.length = q.2.length

/-- Invariant of the accumulation loop: the table is still empty, or its
columns are exactly the `fill_row` columns and all have a common length. -/
def tableInv (traffic : Bool) (t : Table) : Prop :=
  t = [] ∨ (tableKeys t = rowKeys traffic ∧ ∃ n, ∀ p ∈ t, p.2.length = n)

/-- The environment raises no transport exception for any repository. -/
def noTransportExn (env : GitHubEnv) : Prop :=
  ∀ o r, env.meta o r ≠ .exn ∧ env.views o r ≠ .exn ∧ env.clones o r ≠ .exn

/-- Environment for the end-to-end check of the spec: the metadata request
always returns status 200 with 10 stargazers, 5 forks and 20 watchers. -/
def envC10 : GitHubEnv where
  meta := fun _ _ => .resp 200 ⟨10, 5, 20⟩
  views := fun _ _ => .resp 200 0
  clones := fun _ _ => .resp 200 0

/-- Environment in which every metadata request fails with status 404. -/
def env404 : GitHubEnv where
  meta := fun _ _ => .resp 404 ⟨0, 0, 0⟩
  views := fun _ _ => .resp 404 0
  clones := fun _ _ => .resp 404 0

/-! ### Row-range selection in the citation tool's `main` -/

/-- Python `range(s, e, 10)` over integers. -/
def rangeTen (s e : Int) : List Int :=
  if s < e then s :: rangeTen (s + 10) e else []
termination_by (e - s).toNat
decreasing_by omega

/-- Python `range(a, b)` over integers. -/
def rangeOne (a b : Int) : List Int :=
  if a < b then a :: rangeOne (a + 1) b else []
termination_by (b - a).toNat
decreasing_by omega

/-- The row indices visited by the nested loops of `main` in
`scholar_citations.py`: `for j in range(start_row, end_row, 10)` and inside
it `for i in range(j*10, (j+1)*10)`. -/
def processed_rows (s e : Int) : List Int :=
  (rangeTen s e).flatMap (fun j => rangeOne (j * 10) ((j + 1) * 10))

/-! ## Theorems -/

theorem match_surnames_false_of_disjoint (l1 l2 : List (List Char))
    (h : ∀ x ∈ l1, x ∉ l2) : match_surnames l1 l2 = false := by
  induction l1 with
  | nil => rfl
  | cons name rest ih =>
    have hn : ¬ l2.contains name = true := by
      rw [List.elem_iff]
      exact h name (List.mem_cons_self ..)
    simp only [match_surnames, if_neg hn]
    exact ih fun x hx => h x (List.mem_cons_of_mem _ hx)

theorem match_surnames_self (l : List (List Char)) (h : l ≠ []) :
    match_surnames l l = true := by
  cases l with
  | nil => exact absurd rfl h
  | cons name rest =>
    have : (name :: rest).contains name = true := by
      rw [List.elem_iff]
      exact List.mem_cons_self ..
    simp [match_surnames, this]

theorem selectCitations_no_match (A : List (List Char))
    (rs : List SearchRecord) (hA : A ≠ [])
    (h : ∀ r ∈ rs, match_surnames r.authors A = false) :
    selectCitations A rs = -1 := by
  induction rs with
  | nil => rfl
  | cons r rest ih =>
    have hr : match_surnames r.authors A = false := h r (List.mem_cons_self ..)
    have hA2 : A.isEmpty = false := by
      cases A
      · exact absurd rfl hA
      · rfl
    have hcond : ¬ ((match_surnames r.authors A || A.isEmpty) = true) := by
      simp [hr, hA2]
    simp only [selectCitations]
    rw [if_neg hcond]
    exact ih fun r' hr' => h r' (List.mem_cons_of_mem _ hr')

theorem selectCitations_mem (A : List (List Char)) (rs : List SearchRecord)
    (h : selectCitations A rs ≠ -1) :
    ∃ r ∈ rs, selectCitations A rs = r.citations ∧
      (match_surnames r.authors A = true ∨ A = []) := by
  induction rs with
  | nil => exact absurd rfl h
  | cons r rest ih =>
    by_cases hc : (match_surnames r.authors A || A.isEmpty) = true
    · refine ⟨r, List.mem_cons_self .., ?_, ?_⟩
      · simp [selectCitations, hc]
      · rcases Bool.or_eq_true .. |>.mp hc with h1 | h1
        · exact Or.inl h1
        · exact Or.inr (List.isEmpty_iff.mp h1)
    · have hsel : selectCitations A (r :: rest) = selectCitations A rest := by
        simp only [selectCitations, if_neg hc]
      rw [hsel] at h ⊢
      obtain ⟨r', hr', hval, hm⟩ := ih h
      exact ⟨r', List.mem_cons_of_mem _ hr', hval, hm⟩

/-- C1 (counterexample): for a row whose `Author(s)` field is not a string,
`process_row` still reports the first search result's citation count (7)
even though no surname is shared (the row's surname list is empty), instead
of the sentinel `-1` that the claim requires. -/
theorem C1_counterexample :
    process_row AuthorsVal.nanv (some [⟨["Smith".toList], 7⟩]) = 7 ∧
      rowSurnames AuthorsVal.nanv = [] ∧ (7 : Int) ≠ -1 := by
  refine ⟨rfl, rfl, by decide⟩

/-- C1 (amended): a candidate's citation count is reported only when the
candidate's surnames overlap the row's surnames, or the row's surname list
is empty (in which case the first candidate is accepted unconditionally);
when the row's surname list is nonempty and no candidate overlaps, or the
query returned no result, the value is the sentinel `-1`. -/
theorem C1_process_row_match (pa : AuthorsVal)
    (qr : Option (List SearchRecord)) :
    (qr = none → process_row pa qr = -1) ∧
    (∀ rs, qr = some rs → rowSurnames pa ≠ [] →
      (∀ r ∈ rs, match_surnames r.authors (rowSurnames pa) = false) →
      process_row pa qr = -1) ∧
    (process_row pa qr ≠ -1 →
      ∃ rs, qr = some rs ∧ ∃ r ∈ rs,
        process_row pa qr = r.citations ∧
        (match_surnames r.authors (rowSurnames pa) = true ∨
          rowSurnames pa = [])) := by
  refine ⟨?_, ?_, ?_⟩
  · rintro rfl; rfl
  · rintro rs rfl hA h
    exact selectCitations_no_match _ rs hA h
  · intro h
    cases qr with
    | none => exact absurd rfl h
    | some rs =>
      obtain ⟨r, hr, hval, hm⟩ := selectCitations_mem (rowSurnames pa) rs h
      exact ⟨rs, rfl, r, hr, hval, hm⟩

/-- Witness for the amended C1 theorem at concrete inputs: a row with
authors `Barlow N` against a single non-matching result gives `-1`. -/
theorem C1_process_row_match_witness :
    process_row (AuthorsVal.str "Barlow N".toList)
      (some [⟨["Smith".toList], 7⟩]) = -1 := by
  have hrow : rowSurnames (AuthorsVal.str "Barlow N".toList) =
      ["Barlow".toList] := by
    simp [rowSurnames, findall, findAux, upChar, lowChar]
  refine (C1_process_row_match (AuthorsVal.str "Barlow N".toList)
      (some [⟨["Smith".toList], 7⟩])).2.1 _ rfl ?_ ?_
  · rw [hrow]; decide
  · intro r hr
    rw [List.mem_singleton] at hr
    subst hr
    rw [hrow]
    decide

/-- C4 (counterexample): the claim quantifies over every list, but for the
empty list `match_surnames` applied to the list and itself is `false`. -/
theorem C4_counterexample :
    match_surnames ([] : List (List Char)) ([] : List (List Char)) = false :=
  rfl

/-- C4 (amended): for any two surname lists with no common element
`match_surnames` returns `false`; for any nonempty list matched against
itself it returns `true`. -/
theorem C4_match_surnames_spec :
    (∀ l1 l2 : List (List Char), (∀ x ∈ l1, x ∉ l2) →
      match_surnames l1 l2 = false) ∧
    (∀ l : List (List Char), l ≠ [] → match_surnames l l = true) :=
  ⟨match_surnames_false_of_disjoint, match_surnames_self⟩

/-- Witness for the amended C4 theorem at concrete inputs. -/
theorem C4_match_surnames_spec_witness :
    match_surnames ["Smith".toList] ["Jones".toList] = false ∧
      match_surnames ["Smith".toList] ["Smith".toList] = true :=
  ⟨C4_match_surnames_spec.1 _ _ (by decide),
   C4_match_surnames_spec.2 _ (by decide)⟩

/-- C6 (counterexample): a Python list is not a string, yet `find_surnames`
on a singleton list of one author string returns a nonempty surname list,
and on a list containing a non-string raises `TypeError` instead of
returning an empty list. -/
theorem C6_counterexample :
    find_surnames (AuthorsVal.list [AuthorsVal.str "Smith J".toList]) =
        .ok ["Smith".toList] ∧
      find_surnames (AuthorsVal.list [AuthorsVal.intv 0]) =
        .error PyErr.typeError := by
  constructor
  · simp [find_surnames, surnameFold, findall, findAux, upChar, lowChar]
  · rfl

/-- C6 (amended): for every input value that is neither a string nor a list
nor a tuple (for example the `NaN` float of a missing author field),
`find_surnames` returns the empty list and raises no exception. -/
theorem C6_find_surnames_other (v : AuthorsVal) (h : isOtherVal v = true) :
    find_surnames v = .ok [] := by
  cases v <;> simp_all [isOtherVal, find_surnames]

/-- Witness for the amended C6 theorem at the `NaN` input. -/
theorem C6_find_surnames_other_witness :
    find_surnames AuthorsVal.nanv = .ok [] :=
  C6_find_surnames_other AuthorsVal.nanv rfl

/-- C9: when the primary metadata request returns a non-200 status,
`get_stars_watchers_forks` raises `RuntimeError` instead of returning a
result dictionary. -/
theorem C9_non200_raises (status : Nat) (j : RepoMeta) (h : status ≠ 200) :
    get_stars_watchers_forks (.resp status j) = .error PyErr.runtimeError := by
  simp [get_stars_watchers_forks, h]

/-- Witness for C9 at a concrete 404 response. -/
theorem C9_non200_raises_witness :
    get_stars_watchers_forks (.resp 404 ⟨10, 5, 20⟩) =
      .error PyErr.runtimeError :=
  C9_non200_raises 404 ⟨10, 5, 20⟩ (by decide)

/-- C10: for the single input line `https://github.com/octocat/Hello-World`
and a metadata response with stargazers 10, forks 5, watchers 20, the batch
driver produces exactly the row `repo=octocat/Hello-World, stars=10,
forks=5, watchers=20`, the counts passed through unmodified. -/
theorem C10_end_to_end :
    process_input_file ["https://github.com/octocat/Hello-World".toList]
        false envC10 =
      .ok [("repo", [Val.strv "octocat/Hello-World"]),
           ("stars", [Val.intv 10]),
           ("forks", [Val.intv 5]),
           ("watchers", [Val.intv 20])] := by
  rfl

/-- C2 (counterexample): an input file whose first line does not match
`GITHUB_REGEX` makes `process_input_file` raise `RuntimeError` for the whole
batch; the following well-formed line is never processed, contradicting the
claim that every per-item failure is skipped. -/
theorem C2_counterexample :
    process_input_file
        ["not a valid line".toList,
         "https://github.com/octocat/Hello-World".toList] false envC10 =
      .error PyErr.runtimeError := by
  rfl

/-- C3 (counterexample): a 200 response whose single result block has a
cite link without a `Cited by N` phrase makes the citation parse raise
`AttributeError`, which propagates out of `process_row` instead of being
reported as the sentinel. -/
theorem C3_counterexample :
    process_row_query AuthorsVal.nanv
        (HttpResult.resp 200 [⟨none, some "Citace 5".toList⟩]) =
      .error PyErr.attributeError := by
  rfl

/-! ### Idempotence of surname extraction (C5) -/

theorem findAux_nil_none : findAux [] none = [] := by simp [findAux]

theorem findAux_nil_some (g : List Char) : findAux [] (some g) = [g] := by
  simp [findAux]

theorem findAux_cons (c : Char) (rest : List Char) (acc : Option (List Char)) :
    findAux (c :: rest) acc =
      if upChar c && !(rest.takeWhile lowChar).isEmpty then
        findAux (rest.dropWhile lowChar) (some (c :: rest.takeWhile lowChar))
      else
        match acc with
        | some g => g :: findAux rest none
        | none => findAux rest none := by
  cases acc <;> simp [findAux]

theorem takeWhile_all_app (p : Char → Bool) (ls rest : List Char)
    (h : ∀ c ∈ ls, p c = true)
    (hrest : ∀ c, rest.head? = some c → p c = false) :
    (ls ++ rest).takeWhile p = ls ∧ (ls ++ rest).dropWhile p = rest := by
  induction ls with
  | nil =>
    cases rest with
    | nil => simp
    | cons c cs =>
      have hc := hrest c rfl
      simp [List.takeWhile_cons, List.dropWhile_cons, hc]
  | cons a as ih =>
    have ha : p a = true := h a (List.mem_cons_self ..)
    have ih2 := ih fun c hc => h c (List.mem_cons_of_mem _ hc)
    simp [List.takeWhile_cons, List.dropWhile_cons, ha, ih2.1, ih2.2]

theorem findAux_good : ∀ (cs : List Char) (acc : Option (List Char)),
    (∀ g, acc = some g → goodBlock g) → ∀ g ∈ findAux cs acc, goodBlock g := by
  intro cs acc
  induction cs, acc using findAux.induct with
  | case1 =>
    intro _ g hg
    rw [findAux_nil_none] at hg
    exact absurd hg (List.not_mem_nil _)
  | case2 g0 =>
    intro hacc g hg
    rw [findAux_nil_some, List.mem_singleton] at hg
    exact hg ▸ hacc g0 rfl
  | case3 c rest acc hcond ih =>
    intro hacc g hg
    rw [findAux_cons, if_pos hcond] at hg
    refine ih ?_ g hg
    intro g' hg'
    obtain ⟨hu, hne⟩ := Bool.and_eq_true .. |>.mp hcond
    injection hg' with hg''
    refine ⟨c, rest.takeWhile lowChar, hg''.symm, hu, ?_, ?_⟩
    · intro hemp
      rw [hemp] at hne
      simp at hne
    · exact fun ch hch => List.mem_takeWhile_imp hch
  | case4 c rest hcond g0 ih =>
    intro hacc g hg
    rw [findAux_cons, if_neg hcond] at hg
    rcases List.mem_cons.mp hg with h1 | h1
    · exact h1 ▸ hacc g0 rfl
    · exact ih (fun g' h' => nomatch h') g h1
  | case5 c rest hcond ih =>
    intro hacc g hg
    rw [findAux_cons, if_neg hcond] at hg
    exact ih (fun g' h' => nomatch h') g hg

theorem findAux_block (u : Char) (ls rest : List Char)
    (acc : Option (List Char)) (hu : upChar u = true) (hls : ls ≠ [])
    (hlow : ∀ c ∈ ls, lowChar c = true)
    (hrest : ∀ c, rest.head? = some c → lowChar c = false) :
    findAux (u :: (ls ++ rest)) acc = findAux rest (some (u :: ls)) := by
  obtain ⟨ht, hd⟩ := takeWhile_all_app lowChar ls rest hlow hrest
  have hne : ((ls ++ rest).takeWhile lowChar).isEmpty = false := by
    rw [ht]
    cases ls
    · exact absurd rfl hls
    · rfl
  have hcond : (upChar u && !((ls ++ rest).takeWhile lowChar).isEmpty) = true := by
    rw [hu, hne]
    rfl
  rw [findAux_cons, if_pos hcond, ht, hd]

theorem findAux_space (rest : List Char) (g : List Char) :
    findAux (' ' :: rest) (some g) = g :: findAux rest none := by
  have hsp : upChar ' ' = false := by decide
  rw [findAux_cons, if_neg]
  rw [hsp]
  simp

theorem findall_joinSpaces :
    ∀ L : List (List Char), (∀ g ∈ L, goodBlock g) →
      findall (joinSpaces L) = L := by
  intro L
  induction L with
  | nil => intro _; exact findAux_nil_none
  | cons g gs ih =>
    intro hL
    obtain ⟨u, ls, hgu, hu, hls, hlow⟩ := hL g (List.mem_cons_self ..)
    subst hgu
    cases gs with
    | nil =>
      show findAux (joinSpaces [u :: ls]) none = [u :: ls]
      have hb := findAux_block u ls [] none hu hls hlow
        (by intro c hc; exact absurd hc (by simp))
      rw [List.append_nil] at hb
      show findAux (u :: ls) none = [u :: ls]
      rw [hb, findAux_nil_some]
    | cons g2 gs2 =>
      show findAux ((u :: ls) ++ ' ' :: joinSpaces (g2 :: gs2)) none =
        (u :: ls) :: g2 :: gs2
      have hb := findAux_block u ls (' ' :: joinSpaces (g2 :: gs2)) none hu hls
        hlow (by
          intro c hc
          injection hc with hc'
          rw [← hc']
          decide)
      rw [List.cons_append, hb, findAux_space]
      exact congrArg (List.cons _)
        (ih fun g' hg' => hL g' (List.mem_cons_of_mem _ hg'))

/-- C5: surname extraction is idempotent on its own output: extracting
surnames from the string built by joining the extracted surname list with
single spaces returns the same list. -/
theorem C5_find_surnames_idempotent (s : List Char) :
    find_surnames (AuthorsVal.str (joinSpaces (findall s))) =
      find_surnames (AuthorsVal.str s) := by
  show Except.ok (findall (joinSpaces (findall s))) = Except.ok (findall s)
  rw [findall_joinSpaces (findall s) (findAux_good s none fun g h => nomatch h)]

/-! ### Failure policy of the citation path (C3) -/

theorem parseBlock_ok (b : ResultBlock) (h : wellFormedCite b) :
    ∃ r, parseBlock b = .ok r := by
  obtain ⟨ad, cl⟩ := b
  cases cl with
  | none => exact ⟨_, rfl⟩
  | some txt =>
    obtain ⟨n, hn⟩ := Option.isSome_iff_exists.mp (h txt rfl)
    cases ad with
    | none => exact ⟨⟨[], (n : Int)⟩, by simp [parseBlock, hn]⟩
    | some t2 =>
      exact ⟨⟨findall (t2.takeWhile (fun c => c.toNat ≠ 160)), (n : Int)⟩,
        by simp [parseBlock, hn]⟩

theorem parse_query_result_ok (soup : Soup)
    (h : ∀ b ∈ soup, wellFormedCite b) :
    ∃ rs, parse_query_result soup = .ok rs := by
  induction soup with
  | nil => exact ⟨[], rfl⟩
  | cons b rest ih =>
    obtain ⟨r, hr⟩ := parseBlock_ok b (h b (List.mem_cons_self ..))
    obtain ⟨rs, hrs⟩ := ih fun b' hb' => h b' (List.mem_cons_of_mem _ hb')
    exact ⟨r :: rs, by rw [parse_query_result, hr, hrs]⟩

/-- C3 (amended): a transport exception and a non-200 status are caught in
`perform_query` and reported as the sentinel `-1`; and whenever every
result block's cite link (if present) does contain a parsable `Cited by N`
phrase, `process_row` finishes without an exception.  (The counterexample
shows that a cite link without such a phrase raises an uncaught
`AttributeError`, so the claim's "any parse exception is swallowed" part
fails.) -/
theorem C3_failure_policy :
    (∀ pa : AuthorsVal, process_row_query pa .exn = .ok (-1)) ∧
    (∀ (pa : AuthorsVal) (status : Nat) (soup : Soup), status ≠ 200 →
      process_row_query pa (.resp status soup) = .ok (-1)) ∧
    (∀ (pa : AuthorsVal) (status : Nat) (soup : Soup),
      (∀ b ∈ soup, wellFormedCite b) →
      ∃ c, process_row_query pa (.resp status soup) = .ok c) := by
  refine ⟨fun pa => rfl, ?_, ?_⟩
  · intro pa status soup h
    simp [process_row_query, perform_query, h]
  · intro pa status soup h
    by_cases hs : status = 200
    · obtain ⟨rs, hrs⟩ := parse_query_result_ok soup h
      refine ⟨selectCitations (rowSurnames pa) rs, ?_⟩
      simp [process_row_query, perform_query, hs, hrs]
    · exact ⟨-1, by simp [process_row_query, perform_query, hs]⟩

/-- Witness for the amended C3 theorem: a 404 response yields the sentinel,
and a 200 response with one well-formed result block yields some value. -/
theorem C3_failure_policy_witness :
    process_row_query AuthorsVal.nanv (.resp 404 []) = .ok (-1) ∧
      ∃ c, process_row_query AuthorsVal.nanv
        (.resp 200 [⟨none, some "Cited by 12".toList⟩]) = .ok c := by
  refine ⟨C3_failure_policy.2.1 AuthorsVal.nanv 404 [] (by decide),
    C3_failure_policy.2.2 AuthorsVal.nanv 200 _ ?_⟩
  intro b hb
  rw [List.mem_singleton] at hb
  subst hb
  intro txt htxt
  injection htxt with h'
  rw [← h']
  decide

/-! ### Error policy of the metrics batch driver (C2) -/

theorem fill_row_no_requests (owner repo : List Char) (traffic : Bool)
    (env : GitHubEnv) (h1 : env.meta owner repo ≠ .exn)
    (h2 : env.views owner repo ≠ .exn) (h3 : env.clones owner repo ≠ .exn) :
    fill_row owner repo traffic env = .error PyErr.runtimeError ∨
      ∃ row, fill_row owner repo traffic env = .ok row := by
  cases hm : env.meta owner repo with
  | exn => exact absurd hm h1
  | resp s j =>
    by_cases hs : s = 200
    · right
      cases traffic with
      | false =>
        simp [fill_row, get_stars_watchers_forks, hm, hs]
      | true =>
        cases hv : env.views owner repo with
        | exn => exact absurd hv h2
        | resp vs vc =>
          by_cases hvs : vs = 200
          · cases hc : env.clones owner repo with
            | exn => exact absurd hc h3
            | resp cs cc =>
              by_cases hcs : cs = 200
              · simp [fill_row, get_stars_watchers_forks, get_traffic,
                  hm, hs, hv, hvs, hc, hcs]
              · simp [fill_row, get_stars_watchers_forks, get_traffic,
                  hm, hs, hv, hvs, hc, hcs]
          · simp [fill_row, get_stars_watchers_forks, get_traffic,
              hm, hs, hv, hvs]
    · left
      simp [fill_row, get_stars_watchers_forks, hm, hs]

theorem processLine_ok (traffic : Bool) (env : GitHubEnv) (t : Table)
    (line : List Char) (hre : githubSearch (pystrip line) = true)
    (hnoexn : noTransportExn env) :
    ∃ t', processLine traffic env t line = .ok t' := by
  obtain ⟨h1, h2, h3⟩ := hnoexn (parseOwnerRepo (pystrip line)).1
    (parseOwnerRepo (pystrip line)).2
  simp only [processLine]
  rw [if_pos hre]
  rcases fill_row_no_requests _ _ traffic env h1 h2 h3 with h | ⟨row, h⟩
  · rw [h]
    exact ⟨t, rfl⟩
  · rw [h]
    exact ⟨applyRow t row, rfl⟩

theorem foldl_process_ok (traffic : Bool) (env : GitHubEnv)
    (hnoexn : noTransportExn env) :
    ∀ (lines : List (List Char)) (t0 : Table),
      (∀ l ∈ lines, githubSearch (pystrip l) = true) →
      ∃ t, List.foldlM (fun a l => processLine traffic env a l) t0 lines =
        .ok t := by
  intro lines
  induction lines with
  | nil => exact fun t0 _ => ⟨t0, rfl⟩
  | cons l rest ih =>
    intro t0 hre
    obtain ⟨t1, h1⟩ :=
      processLine_ok traffic env t0 l (hre l (List.mem_cons_self ..)) hnoexn
    obtain ⟨t2, h2⟩ := ih t1 fun l' hl' => hre l' (List.mem_cons_of_mem _ hl')
    refine ⟨t2, ?_⟩
    rw [List.foldlM_cons, h1]
    exact h2

/-- C2 (amended): inside `process_input_file`, a `RuntimeError` raised by
the per-item fetch (for example a non-200 metadata status) is caught, that
item contributes nothing, and the loop continues: the table is unchanged
and, when every line matches `GITHUB_REGEX` and no transport exception
occurs, the whole batch finishes normally.  A line that does not match
`GITHUB_REGEX`, however, raises outside the `try` block and aborts the
whole batch (see the counterexample). -/
theorem C2_error_policy :
    (∀ (traffic : Bool) (env : GitHubEnv) (t : Table) (line : List Char)
        (status : Nat) (j : RepoMeta),
      githubSearch (pystrip line) = true →
      env.meta (parseOwnerRepo (pystrip line)).1
        (parseOwnerRepo (pystrip line)).2 = .resp status j →
      status ≠ 200 →
      processLine traffic env t line = .ok t) ∧
    (∀ (traffic : Bool) (env : GitHubEnv) (lines : List (List Char)),
      (∀ l ∈ lines, githubSearch (pystrip l) = true) → noTransportExn env →
      ∃ t, process_input_file lines traffic env = .ok t) := by
  constructor
  · intro traffic env t line status j hre hmeta hstatus
    simp only [processLine]
    rw [if_pos hre]
    simp [fill_row, get_stars_watchers_forks, hmeta, hstatus]
  · intro traffic env lines hre hnoexn
    exact foldl_process_ok traffic env hnoexn lines [] hre

/-- Witness for the amended C2 theorem: with every metadata request
answering 404, a well-formed line is skipped (table unchanged) and the
batch still completes. -/
theorem C2_error_policy_witness :
    processLine false env404 []
        "https://github.com/octocat/Hello-World".toList = .ok [] ∧
      ∃ t, process_input_file
        ["https://github.com/octocat/Hello-World".toList] false env404 =
          .ok t := by
  refine ⟨?_, ?_⟩
  · exact C2_error_policy.1 false env404 []
      "https://github.com/octocat/Hello-World".toList 404 ⟨0, 0, 0⟩
      (by decide) rfl (by decide)
  · refine C2_error_policy.2 false env404
      ["https://github.com/octocat/Hello-World".toList] ?_ ?_
    · intro l hl
      rw [List.mem_singleton] at hl
      subst hl
      decide
    · intro o r
      refine ⟨?_, ?_, ?_⟩ <;> (intro h; simp [env404] at h)

/-! ### Row-range selection of the citation tool (C7) -/

theorem rangeOne_eq (a b : Int) :
    rangeOne a b = if a < b then a :: rangeOne (a + 1) b else [] := by
  rw [rangeOne]

theorem rangeTen_eq (s e : Int) :
    rangeTen s e = if s < e then s :: rangeTen (s + 10) e else [] := by
  rw [rangeTen]

theorem mem_rangeOne (a b i : Int) : i ∈ rangeOne a b ↔ a ≤ i ∧ i < b := by
  induction a, b using rangeOne.induct with
  | case1 a b h ih =>
    rw [rangeOne_eq, if_pos h, List.mem_cons, ih]
    omega
  | case2 a b h =>
    rw [rangeOne_eq, if_neg h]
    simp only [List.not_mem_nil, false_iff]
    omega

theorem mem_rangeTen (s e j : Int) :
    j ∈ rangeTen s e ↔ (∃ k : ℕ, j = s + 10 * (k : Int)) ∧ j < e := by
  induction s, e using rangeTen.induct with
  | case1 s e h ih =>
    rw [rangeTen_eq, if_pos h, List.mem_cons, ih]
    constructor
    · rintro (rfl | ⟨⟨k, rfl⟩, hlt⟩)
      · exact ⟨⟨0, by simp⟩, h⟩
      · exact ⟨⟨k + 1, by push_cast; ring⟩, hlt⟩
    · rintro ⟨⟨k, rfl⟩, hlt⟩
      cases k with
      | zero => left; simp
      | succ k' =>
        right
        exact ⟨⟨k', by push_cast; ring⟩, hlt⟩
  | case2 s e h =>
    rw [rangeTen_eq, if_neg h]
    simp only [List.not_mem_nil, false_iff]
    rintro ⟨⟨k, rfl⟩, hlt⟩
    have hk : (0 : Int) ≤ (k : Int) := Int.natCast_nonneg k
    omega

/-- C7: the nested loops of the citation tool's `main` visit exactly the
row indices `10*j .. 10*j+9` for `j` in `start_row, start_row+10, ...`
below `end_row`; in particular, when `start_row` is `s < end_row`, the
first row processed is row `10*s`, not row `s`. -/
theorem C7_processed_rows :
    (∀ s e i : Int, i ∈ processed_rows s e ↔
      ∃ k : ℕ, s + 10 * (k : Int) < e ∧ 10 * (s + 10 * (k : Int)) ≤ i ∧
        i < 10 * (s + 10 * (k : Int)) + 10) ∧
    (∀ s e : Int, s < e → (processed_rows s e).head? = some (10 * s)) := by
  constructor
  · intro s e i
    simp only [processed_rows, List.mem_flatMap, mem_rangeTen, mem_rangeOne]
    constructor
    · rintro ⟨j, ⟨⟨k, rfl⟩, hlt⟩, h1, h2⟩
      exact ⟨k, hlt, by omega, by omega⟩
    · rintro ⟨k, hlt, h1, h2⟩
      exact ⟨s + 10 * (k : Int), ⟨⟨k, rfl⟩, hlt⟩, by omega, by omega⟩
  · intro s e h
    have h10 : s * 10 < (s + 1) * 10 := by omega
    rw [processed_rows, rangeTen_eq, if_pos h, List.flatMap_cons,
      rangeOne_eq, if_pos h10, List.cons_append, List.head?_cons]
    rw [Int.mul_comm]

/-- Witness for C7 at concrete bounds: with `start_row 0, end_row 3` row 5
is processed, and with `start_row 2` the first row processed is 20. -/
theorem C7_processed_rows_witness :
    5 ∈ processed_rows 0 3 ∧ (processed_rows 2 13).head? = some 20 := by
  constructor
  · exact (C7_processed_rows.1 0 3 5).mpr ⟨0, by norm_num⟩
  · have h := C7_processed_rows.2 2 13 (by norm_num)
    simpa using h

/-! ### Balance of the accumulated result table (C8) -/

theorem updateTable_cons (q : String × List Val) (t : Table) (k : String)
    (v : List Val) (h : q.1 ≠ k) :
    updateTable (q :: t) k v = q :: updateTable t k v := by
  have hcons : ((q :: t).any (fun p => p.1 = k)) =
      (t.any (fun p => p.1 = k)) := by
    simp [List.any_cons, h]
  by_cases ha : t.any (fun p => p.1 = k) = true
  · rw [updateTable, updateTable, if_pos (hcons.trans ha), if_pos ha,
      List.map_cons, if_neg h]
  · rw [updateTable, updateTable,
      if_neg (fun hc => ha (hcons ▸ hc)), if_neg ha, List.cons_append]

theorem applyRow_cons (q : String × List Val) (t : Table)
    (row : List (String × List Val)) (h : ∀ kv ∈ row, kv.1 ≠ q.1) :
    applyRow (q :: t) row = q :: applyRow t row := by
  induction row generalizing t with
  | nil => rfl
  | cons kv row' ih =>
    simp only [applyRow, List.foldl_cons]
    rw [updateTable_cons q t kv.1 kv.2
      (Ne.symm (h kv (List.mem_cons_self ..)))]
    exact ih (updateTable t kv.1 kv.2)
      fun kv' h' => h kv' (List.mem_cons_of_mem _ h')

theorem map_no_key (t : Table) (k : String) (v : List Val)
    (h : ∀ q ∈ t, q.1 ≠ k) :
    t.map (fun p => if p.1 = k then (p.1, p.2 ++ v) else p) = t := by
  induction t with
  | nil => rfl
  | cons q t' ih =>
    rw [List.map_cons, if_neg (h q (List.mem_cons_self ..)),
      ih fun q' hq' => h q' (List.mem_cons_of_mem _ hq')]

theorem updateTable_head (p : String × List Val) (t : Table) (v : List Val)
    (h : ∀ q ∈ t, q.1 ≠ p.1) :
    updateTable (p :: t) p.1 v = (p.1, p.2 ++ v) :: t := by
  have hany : ((p :: t).any (fun q => q.1 = p.1)) = true := by
    simp [List.any_cons]
  rw [updateTable, if_pos hany, List.map_cons, if_pos rfl, map_no_key t p.1 v h]

theorem tableKeys_nil (t : Table) (h : tableKeys t = []) : t = [] := by
  cases t with
  | nil => rfl
  | cons p t' => simp [tableKeys] at h

theorem applyRow_aligned :
    ∀ (t row : Table), tableKeys t = tableKeys row →
      (tableKeys row).Nodup →
      applyRow t row = List.zipWith (fun p kv => (p.1, p.2 ++ kv.2)) t row := by
  intro t
  induction t with
  | nil =>
    intro row hkeys _
    rw [tableKeys] at hkeys
    have : row = [] := tableKeys_nil row hkeys.symm
    subst this
    rfl
  | cons p t' ih =>
    intro row hkeys hnodup
    cases row with
    | nil => simp [tableKeys] at hkeys
    | cons kv row' =>
      simp only [tableKeys, List.map_cons, List.cons.injEq] at hkeys
      obtain ⟨hk, htail⟩ := hkeys
      simp only [tableKeys, List.map_cons, List.nodup_cons] at hnodup
      obtain ⟨hnotmem, hnodup'⟩ := hnodup
      have hqt' : ∀ q ∈ t', q.1 ≠ p.1 := by
        intro q hq hcontra
        apply hnotmem
        rw [← hk, ← hcontra]
        exact htail ▸ List.mem_map_of_mem Prod.fst hq
      have hrow' : ∀ kv' ∈ row', kv'.1 ≠ p.1 := by
        intro kv' hkv' hcontra
        apply hnotmem
        rw [← hk, ← hcontra]
        exact List.mem_map_of_mem Prod.fst hkv'
      simp only [applyRow, List.foldl_cons]
      rw [← hk, updateTable_head p t' kv.2 hqt']
      have := applyRow_cons (p.1, p.2 ++ kv.2) t' row'
        (by intro kv' h'; exact hrow' kv' h')
      simp only [applyRow] at this ih ⊢
      rw [this, ih row' (by rw [tableKeys, htail, tableKeys])
        (by rw [tableKeys]; exact hnodup'), List.zipWith_cons_cons, hk]

theorem applyRow_nil :
    ∀ row : Table, (tableKeys row).Nodup → applyRow [] row = row := by
  intro row
  induction row with
  | nil => intro _; rfl
  | cons kv row' ih =>
    intro hnodup
    simp only [tableKeys, List.map_cons, List.nodup_cons] at hnodup
    obtain ⟨hnotmem, hnodup'⟩ := hnodup
    have hstep : updateTable [] kv.1 kv.2 = [(kv.1, kv.2)] := rfl
    simp only [applyRow, List.foldl_cons]
    rw [hstep]
    have hrow' : ∀ kv' ∈ row', kv'.1 ≠ (kv.1, kv.2).1 := by
      intro kv' hkv' hcontra
      exact hnotmem (hcontra ▸ List.mem_map_of_mem Prod.fst hkv')
    have := applyRow_cons (kv.1, kv.2) [] row' hrow'
    simp only [applyRow] at this ih ⊢
    rw [this, ih (by rw [tableKeys]; exact hnodup')]

theorem tableKeys_zipWith :
    ∀ (t row : Table), t.length = row.length →
      tableKeys (List.zipWith (fun p kv => (p.1, p.2 ++ kv.2)) t row) =
        tableKeys t := by
  intro t
  induction t with
  | nil => intro row _; rfl
  | cons p t' ih =>
    intro row hlen
    cases row with
    | nil => simp at hlen
    | cons kv row' =>
      simp only [List.length_cons, Nat.add_right_cancel_iff] at hlen
      simp only [List.zipWith_cons_cons, tableKeys, List.map_cons]
      have := ih row' hlen
      simp only [tableKeys] at this
      rw [this]

theorem zipWith_lengths :
    ∀ (t row : Table) (n : Nat), (∀ p ∈ t, p.2.length = n) →
      (∀ kv ∈ row, kv.2.length = 1) →
      ∀ q ∈ List.zipWith (fun p kv => (p.1, p.2 ++ kv.2)) t row,
        q.2.length = n + 1 := by
  intro t
  induction t with
  | nil =>
    intro row n _ _ q hq
    simp at hq
  | cons p t' ih =>
    intro row n ht hrow q hq
    cases row with
    | nil => simp at hq
    | cons kv row' =>
      rw [List.zipWith_cons_cons, List.mem_cons] at hq
      rcases hq with rfl | hq
      · simp only [List.length_append]
        rw [ht p (List.mem_cons_self ..), hrow kv (List.mem_cons_self ..)]
      · exact ih row' n (fun p' h' => ht p' (List.mem_cons_of_mem _ h'))
          (fun kv' h' => hrow kv' (List.mem_cons_of_mem _ h')) q hq

theorem rowKeys_nodup (traffic : Bool) : (rowKeys traffic).Nodup := by
  cases traffic <;> decide

theorem fill_row_shape (owner repo : List Char) (traffic : Bool)
    (env : GitHubEnv) (row : List (String × List Val))
    (h : fill_row owner repo traffic env = .ok row) :
    tableKeys row = rowKeys traffic ∧ ∀ kv ∈ row, kv.2.length = 1 := by
  cases hm : env.meta owner repo with
  | exn => simp [fill_row, get_stars_watchers_forks, hm] at h
  | resp s j =>
    by_cases hs : s = 200
    · cases traffic with
      | false =>
        simp only [fill_row, get_stars_watchers_forks, hm, if_pos hs,
          Bool.false_eq_true, if_false, Except.ok.injEq] at h
        subst h
        refine ⟨rfl, ?_⟩
        intro kv hkv
        simp only [List.mem_cons, List.not_mem_nil, or_false] at hkv
        rcases hkv with rfl | rfl | rfl | rfl <;> rfl
      | true =>
        cases hv : env.views owner repo with
        | exn =>
          simp [fill_row, get_stars_watchers_forks, get_traffic, hm, hs,
            hv] at h
        | resp vs vc =>
          by_cases hvs : vs = 200
          · cases hc : env.clones owner repo with
            | exn =>
              simp [fill_row, get_stars_watchers_forks, get_traffic, hm,
                hs, hv, hvs, hc] at h
            | resp cs cc =>
              by_cases hcs : cs = 200 <;>
                [simp only [fill_row, get_stars_watchers_forks, get_traffic,
                  hm, if_pos hs, hv, if_pos hvs, hc, if_pos hcs, if_true,
                  List.cons_append, List.nil_append, Except.ok.injEq] at h;
                 simp only [fill_row, get_stars_watchers_forks, get_traffic,
                  hm, if_pos hs, hv, if_pos hvs, hc, if_neg hcs, if_true,
                  List.cons_append, List.nil_append, Except.ok.injEq] at h] <;>
                (subst h
                 refine ⟨rfl, ?_⟩
                 intro kv hkv
                 simp only [List.mem_cons, List.not_mem_nil, or_false] at hkv
                 rcases hkv with rfl | rfl | rfl | rfl | rfl | rfl <;> rfl)
          · simp only [fill_row, get_stars_watchers_forks, get_traffic, hm,
              if_pos hs, hv, if_neg hvs, if_true, List.cons_append,
              List.nil_append, Except.ok.injEq] at h
            subst h
            refine ⟨rfl, ?_⟩
            intro kv hkv
            simp only [List.mem_cons, List.not_mem_nil, or_false] at hkv
            rcases hkv with rfl | rfl | rfl | rfl | rfl | rfl <;> rfl
    · simp [fill_row, get_stars_watchers_forks, hm, hs] at h

theorem processLine_inv (traffic : Bool) (env : GitHubEnv) (t : Table)
    (line : List Char) (t' : Table) (hinv : tableInv traffic t)
    (h : processLine traffic env t line = .ok t') : tableInv traffic t' := by
  simp only [processLine] at h
  by_cases hre : githubSearch (pystrip line) = true
  · rw [if_pos hre] at h
    cases hfr : fill_row (parseOwnerRepo (pystrip line)).1
        (parseOwnerRepo (pystrip line)).2 traffic env with
    | error e =>
      rw [hfr] at h
      cases e with
      | runtimeError =>
        have ht : t = t' := by injection h
        exact ht ▸ hinv
      | typeError => exact absurd h (by simp)
      | attributeError => exact absurd h (by simp)
      | requestsError => exact absurd h (by simp)
    | ok row =>
      rw [hfr] at h
      have ht' : t' = applyRow t row := by
        injection h with h'
        exact h'.symm
      subst ht'
      obtain ⟨hkeys, hlen⟩ := fill_row_shape _ _ traffic env row hfr
      have hnodup : (tableKeys row).Nodup := hkeys ▸ rowKeys_nodup traffic
      rcases hinv with rfl | ⟨hk, n, hn⟩
      · right
        rw [applyRow_nil row hnodup]
        exact ⟨hkeys, 1, hlen⟩
      · right
        have hlenEq : t.length = row.length := by
          have h1 : (tableKeys t).length = (tableKeys row).length := by
            rw [hk, hkeys]
          simpa [tableKeys] using h1
        rw [applyRow_aligned t row (by rw [hk, hkeys]) hnodup]
        refine ⟨?_, n + 1, ?_⟩
        · rw [tableKeys_zipWith t row hlenEq, hk]
        · exact zipWith_lengths t row n hn hlen
  · rw [if_neg hre] at h
    exact absurd h (by simp)

theorem foldl_inv (traffic : Bool) (env : GitHubEnv) :
    ∀ (lines : List (List Char)) (t0 t : Table), tableInv traffic t0 →
      List.foldlM (fun a l => processLine traffic env a l) t0 lines = .ok t →
      tableInv traffic t := by
  intro lines
  induction lines with
  | nil =>
    intro t0 t hinv h
    rw [List.foldlM_nil] at h
    injection h with h'
    exact h' ▸ hinv
  | cons l rest ih =>
    intro t0 t hinv h
    rw [List.foldlM_cons] at h
    cases hp : processLine traffic env t0 l with
    | error e =>
      rw [hp] at h
      exact nomatch h
    | ok t1 =>
      rw [hp] at h
      exact ih t1 t (processLine_inv traffic env t0 l t1 hinv hp) h

theorem tableInv_balanced (traffic : Bool) (t : Table)
    (h : tableInv traffic t) : balancedTable t := by
  rcases h with rfl | ⟨_, n, hn⟩
  · intro p hp
    exact absurd hp (List.not_mem_nil _)
  · intro p hp q hq
    rw [hn p hp, hn q hq]

/-- C8: after every iteration of `process_input_file` (equivalently, after
processing any prefix of the input lines), every column list in the
accumulated result table has the same length: a successful row appends
exactly one value to every column and a caught failure appends nothing. -/
theorem C8_columns_balanced (traffic : Bool) (env : GitHubEnv)
    (lines : List (List Char)) (k : Nat) (t : Table)
    (h : List.foldlM (fun a l => processLine traffic env a l) ([] : Table)
      (lines.take k) = .ok t) :
    balancedTable t :=
  tableInv_balanced traffic t
    (foldl_inv traffic env (lines.take k) [] t (Or.inl rfl) h)

/-- Witness for C8 on a concrete one-line batch. -/
theorem C8_columns_balanced_witness :
    balancedTable [("repo", [Val.strv "octocat/Hello-World"]),
      ("stars", [Val.intv 10]), ("forks", [Val.intv 5]),
      ("watchers", [Val.intv 20])] :=
  C8_columns_balanced false envC10
    ["https://github.com/octocat/Hello-World".toList] 1
    [("repo", [Val.strv "octocat/Hello-World"]),
      ("stars", [Val.intv 10]), ("forks", [Val.intv 5]),
      ("watchers", [Val.intv 20])] (by rfl)

end ImpactQuant
